import Mathlib

/- Verification development for the quote-to-document localization engine
   (function find_text_fuzzy in app.py).  Strings are modelled as lists of
   characters; floating point similarity scores are modelled exactly over the
   rationals; PDF parsing is modelled as an optional page list; the catch-all
   exception handler is modelled by an Except value per (page, query) pair. -/

namespace ReconApp

/-- ASCII whitespace as recognised by the regex \s and str.strip/str.split. -/
def isPySpace (c : Char) : Bool :=
  c = ' ' || c = '\t' || c = '\n' || c = '\r' || c = '\x0b' || c = '\x0c'

/-- Longest common subsequence length, with explicit fuel so that the
definition is structurally recursive (hence kernel-reducible). -/
def lcsFuel : Nat → List Char → List Char → Nat
  | 0, _, _ => 0
  | _ + 1, [], _ => 0
  | _ + 1, _ :: _, [] => 0
  | f + 1, a :: s, b :: t =>
    if a = b then lcsFuel f s t + 1
    else max (lcsFuel f (a :: s) t) (lcsFuel f s (b :: t))

/-- Longest common subsequence length of two character lists. -/
def lcsLen (s t : List Char) : Nat := lcsFuel (s.length + t.length) s t

/-- fuzz.ratio of rapidfuzz: the normalized InDel similarity, scaled to
[0,100].  InDel distance is len s + len t - 2 * lcs, so the similarity is
200 * lcs / (len s + len t); two empty strings score 100. -/
def fratioQ (s t : List Char) : ℚ :=
  if s.length + t.length = 0 then 100
  else 200 * (lcsLen s t : ℚ) / ((s.length : ℚ) + (t.length : ℚ))

theorem lcsFuel_mono_le_left : ∀ (f : Nat) (s t : List Char), lcsFuel f s t ≤ s.length := by
  intro f
  induction f with
  | zero => intro s t; simp [lcsFuel]
  | succ f ih =>
    intro s t
    match s, t with
    | [], _ => simp [lcsFuel]
    | _ :: _, [] => simp [lcsFuel]
    | a :: s', b :: t' =>
      simp only [lcsFuel]
      split
      · have := ih s' t'
        simpa [List.length_cons] using Nat.succ_le_succ this
      · have h1 := ih (a :: s') t'
        have h2 := ih s' (b :: t')
        simp only [List.length_cons] at *
        exact max_le h1 (Nat.le_succ_of_le h2)

theorem lcsFuel_mono_le_right : ∀ (f : Nat) (s t : List Char), lcsFuel f s t ≤ t.length := by
  intro f
  induction f with
  | zero => intro s t; simp [lcsFuel]
  | succ f ih =>
    intro s t
    match s, t with
    | [], _ => simp [lcsFuel]
    | _ :: _, [] => simp [lcsFuel]
    | a :: s', b :: t' =>
      simp only [lcsFuel]
      split
      · have := ih s' t'
        simpa [List.length_cons] using Nat.succ_le_succ this
      · have h1 := ih (a :: s') t'
        have h2 := ih s' (b :: t')
        simp only [List.length_cons] at *
        exact max_le (Nat.le_succ_of_le h1) h2

theorem lcsLen_le_left (s t : List Char) : lcsLen s t ≤ s.length :=
  lcsFuel_mono_le_left _ s t

theorem lcsLen_le_right (s t : List Char) : lcsLen s t ≤ t.length :=
  lcsFuel_mono_le_right _ s t

theorem lcsFuel_self : ∀ (s : List Char) (f : Nat), s.length ≤ f → lcsFuel f s s = s.length := by
  intro s
  induction s with
  | nil => intro f _; cases f <;> simp [lcsFuel]
  | cons a s' ih =>
    intro f hf
    match f, hf with
    | f' + 1, hf =>
      simp only [lcsFuel, if_pos rfl]
      have : s'.length ≤ f' := by
        simpa [List.length_cons] using Nat.lt_succ_iff.mp (Nat.lt_of_lt_of_le (Nat.lt_succ_self _) hf)
      rw [ih f' this]
      simp

theorem lcsLen_self (s : List Char) : lcsLen s s = s.length := by
  unfold lcsLen
  exact lcsFuel_self s _ (by omega)

theorem fratioQ_self (s : List Char) : fratioQ s s = 100 := by
  unfold fratioQ
  rcases s with _ | ⟨a, s'⟩
  · simp
  · rw [if_neg (by simp)]
    rw [lcsLen_self]
    have hpos : (0 : ℚ) < ((a :: s').length : ℚ) := by
      exact_mod_cast Nat.succ_pos s'.length
    field_simp
    ring

theorem fratioQ_nonneg (s t : List Char) : 0 ≤ fratioQ s t := by
  unfold fratioQ
  split
  · norm_num
  · next h =>
    apply div_nonneg
    · positivity
    · have : 0 < s.length + t.length := Nat.pos_of_ne_zero h
      have : (0 : ℚ) < (s.length : ℚ) + (t.length : ℚ) := by exact_mod_cast this
      linarith

theorem fratioQ_le_100 (s t : List Char) : fratioQ s t ≤ 100 := by
  unfold fratioQ
  split
  · norm_num
  · next h =>
    have hpos : (0 : ℚ) < (s.length : ℚ) + (t.length : ℚ) := by
      have : 0 < s.length + t.length := Nat.pos_of_ne_zero h
      exact_mod_cast this
    rw [div_le_iff₀ hpos]
    have h1 : lcsLen s t ≤ s.length := lcsLen_le_left s t
    have h2 : lcsLen s t ≤ t.length := lcsLen_le_right s t
    have h1' : (lcsLen s t : ℚ) ≤ (s.length : ℚ) := by exact_mod_cast h1
    have h2' : (lcsLen s t : ℚ) ≤ (t.length : ℚ) := by exact_mod_cast h2
    linarith

/-- The growing alignment windows at the left edge scanned by
fuzz.partial_ratio for a needle of length m: the haystack prefixes of length
1 to m - 1. -/
def prefWindows (s2 : List Char) (m : Nat) : List (List Char) :=
  (List.range' 1 (m - 1)).map fun i => s2.take i

/-- The full-length alignment windows scanned by fuzz.partial_ratio: every
contiguous window of the haystack of length exactly m (the needle length). -/
def midWindows (s2 : List Char) (m : Nat) : List (List Char) :=
  (List.range' 0 (s2.length - m + 1)).map fun i => (s2.drop i).take m

/-- The shrinking alignment windows at the right edge scanned by
fuzz.partial_ratio: the haystack suffixes of length m - 1 down to 1. -/
def sufWindows (s2 : List Char) (m : Nat) : List (List Char) :=
  (List.range' (s2.length - m + 1) (m - 1)).map fun i => s2.drop i

/-- The character filter of fuzz.partial_ratio on the growing and full-length
windows: a window is scored only when its last character (the character the
implementation indexes in the haystack before scoring) occurs in the
needle. -/
def keepLast (s1 w : List Char) : Bool :=
  match w.getLast? with
  | some c => s1.contains c
  | none => false

/-- The character filter of fuzz.partial_ratio on the shrinking windows: a
window is scored only when its first character occurs in the needle. -/
def keepHead (s1 w : List Char) : Bool :=
  match w.head? with
  | some c => s1.contains c
  | none => false

/-- All alignment windows that fuzz.partial_ratio actually scores for needle
s1 inside haystack s2 (requires s1.length ≤ s2.length): the three window
groups in scan order, each restricted by the character filter.  Only windows
of length at most the needle length are ever scored. -/
def partialWindows (s1 s2 : List Char) : List (List Char) :=
  (prefWindows s2 s1.length).filter (keepLast s1) ++
  (midWindows s2 s1.length).filter (keepLast s1) ++
  (sufWindows s2 s1.length).filter (keepHead s1)

/-- The partial-ratio scan for a needle no longer than the haystack: the best
fuzz.ratio of the needle against a scored window, starting from 0. -/
def partialShort (s1 s2 : List Char) : ℚ :=
  (partialWindows s1 s2).foldl (fun b w => max b (fratioQ s1 w)) 0

/-- fuzz.partial_ratio of rapidfuzz: aligns the shorter string inside the
longer one, scoring only windows of length at most the shorter length (full
windows plus clipped edge windows, under the character filter); two empty
strings score 100. -/
def partialRatioQ (s t : List Char) : ℚ :=
  if s.length = 0 ∧ t.length = 0 then 100
  else if s.length ≤ t.length then partialShort s t else partialShort t s

theorem foldl_max_ge_init {α : Type} (g : α → ℚ) :
    ∀ (l : List α) (init : ℚ), init ≤ l.foldl (fun m u => max m (g u)) init := by
  intro l
  induction l with
  | nil => intro init; simp
  | cons a l ih =>
    intro init
    simp only [List.foldl_cons]
    exact le_trans (le_max_left _ _) (ih (max init (g a)))

theorem foldl_max_ge_mem {α : Type} (g : α → ℚ) :
    ∀ (l : List α) (init : ℚ) (u : α), u ∈ l →
      g u ≤ l.foldl (fun m u => max m (g u)) init := by
  intro l
  induction l with
  | nil => intro _ u h; simp at h
  | cons a l ih =>
    intro init u hu
    simp only [List.foldl_cons]
    rcases List.mem_cons.mp hu with h | h
    · subst h
      exact le_trans (le_max_right _ _) (foldl_max_ge_init g l (max init (g u)))
    · exact ih _ u h

theorem foldl_max_le {α : Type} (g : α → ℚ) (c : ℚ) :
    ∀ (l : List α) (init : ℚ), init ≤ c → (∀ u ∈ l, g u ≤ c) →
      l.foldl (fun m u => max m (g u)) init ≤ c := by
  intro l
  induction l with
  | nil => intro init h _; simpa using h
  | cons a l ih =>
    intro init h hall
    simp only [List.foldl_cons]
    apply ih
    · exact max_le h (hall a (List.mem_cons_self a l))
    · intro u hu; exact hall u (List.mem_cons_of_mem a hu)

/-- A nonempty contiguous segment of the haystack that equals the needle is
one of the scored full-length windows: it survives the character filter
because its last character occurs in the needle. -/
theorem seg_mem_partialWindows (s t : List Char) (hs : s ≠ [])
    (h : ∃ a b, t = a ++ s ++ b) : s ∈ partialWindows s t := by
  obtain ⟨a, b, rfl⟩ := h
  unfold partialWindows
  apply List.mem_append.mpr
  refine Or.inl (List.mem_append.mpr (Or.inr ?_))
  apply List.mem_filter.mpr
  constructor
  · unfold midWindows
    apply List.mem_map.mpr
    refine ⟨a.length, ?_, ?_⟩
    · have hlen : (a ++ s ++ b).length = a.length + s.length + b.length := by
        simp
        omega
      rw [List.mem_range'_1]
      omega
    · rw [List.append_assoc, List.drop_left, List.take_left]
  · unfold keepLast
    rw [List.getLast?_eq_getLast s hs]
    simp [List.getLast_mem hs]

theorem partialShort_le_100 (s t : List Char) : partialShort s t ≤ 100 := by
  unfold partialShort
  exact foldl_max_le _ 100 _ 0 (by norm_num) (fun u _ => fratioQ_le_100 s u)

theorem partialShort_eq_100_of_seg (s t : List Char) (hs : s ≠ [])
    (h : ∃ a b, t = a ++ s ++ b) : partialShort s t = 100 := by
  apply le_antisymm (partialShort_le_100 s t)
  have hmem := seg_mem_partialWindows s t hs h
  have hge := foldl_max_ge_mem (fratioQ s) (partialWindows s t) 0 s hmem
  rw [fratioQ_self] at hge
  exact hge

theorem partialRatioQ_eq_100_of_seg (s t : List Char) (hs : s ≠ [])
    (h : ∃ a b, t = a ++ s ++ b) : partialRatioQ s t = 100 := by
  have hlen : s.length ≤ t.length := by
    obtain ⟨a, b, rfl⟩ := h
    simp only [List.length_append]
    omega
  unfold partialRatioQ
  rw [if_neg (fun hc => hs (List.length_eq_zero.mp hc.1)), if_pos hlen]
  exact partialShort_eq_100_of_seg s t hs h

/-- Lower-casing a string, character by character. -/
def toLowerStr (s : List Char) : List Char := s.map Char.toLower

/-- Python's " ".join. -/
def joinSpace : List (List Char) → List Char
  | [] => []
  | [w] => w
  | w :: x :: ws => w ++ ' ' :: joinSpace (x :: ws)

theorem joinSpace_cons_ne (w : List Char) (R : List (List Char)) (hR : R ≠ []) :
    joinSpace (w :: R) = w ++ ' ' :: joinSpace R := by
  rcases R with _ | ⟨v, R'⟩
  · exact absurd rfl hR
  · rfl

theorem joinSpace_append (A B : List (List Char)) (hB : B ≠ []) :
    joinSpace (A ++ B) =
      if A = [] then joinSpace B else joinSpace A ++ ' ' :: joinSpace B := by
  induction A with
  | nil => simp
  | cons w A' ih =>
    rw [if_neg (by simp)]
    have hAB : A' ++ B ≠ [] := by
      intro h
      rcases B with _ | _
      · exact hB rfl
      · cases A' <;> simp_all
    rw [List.cons_append, joinSpace_cons_ne w (A' ++ B) hAB, ih]
    by_cases hA' : A' = []
    · subst hA'
      simp [joinSpace]
    · rw [if_neg hA', joinSpace_cons_ne w A' hA']
      simp

/-- Joining a partitioned token list sandwiches the join of the middle part
between two surrounding character lists. -/
theorem joinSpace_sandwich (A B C : List (List Char)) :
    ∃ a b, joinSpace (A ++ B ++ C) = a ++ joinSpace B ++ b := by
  by_cases hB : B = []
  · subst hB
    exact ⟨joinSpace (A ++ [] ++ C), [], by simp [joinSpace]⟩
  · by_cases hC : C = []
    · subst hC
      rw [List.append_nil]
      rw [joinSpace_append A B hB]
      by_cases hA : A = []
      · exact ⟨[], [], by simp [if_pos hA]⟩
      · exact ⟨joinSpace A ++ [' '], [], by simp [if_neg hA]⟩
    · have hBC : B ++ C ≠ [] := by
        intro h; rcases B with _ | _ <;> simp_all
      rw [List.append_assoc, joinSpace_append A (B ++ C) hBC, joinSpace_append B C hC,
        if_neg hB]
      by_cases hA : A = []
      · exact ⟨[], ' ' :: joinSpace C, by simp [if_pos hA]⟩
      · refine ⟨joinSpace A ++ [' '], ' ' :: joinSpace C, ?_⟩
        rw [if_neg hA]
        simp

/-- A positioned word token as returned by page.get_text of PyMuPDF:
bounding box x0, y0, x1, y1 (coordinates modelled exactly over the rationals)
and the token text.  The trailing block/line/word numbers of the source tuple
are never read by the engine and are omitted. -/
structure Word where
  x0 : ℚ
  y0 : ℚ
  x1 : ℚ
  y1 : ℚ
  text : List Char
deriving DecidableEq

/-- One emitted highlight record (a dict appended to the annotations list). -/
structure Ann where
  page : Nat
  x : ℚ
  y : ℚ
  width : ℚ
  height : ℚ
  color : List Char
  quote : List Char
deriving DecidableEq

end ReconApp

deriving instance DecidableEq for Except

namespace ReconApp

/-- A raw query item of text_quotes: either a bare string or a dict carrying
the text and an optional color. -/
inductive RawQuote where
  | str : List Char → RawQuote
  | dict : List Char → Option (List Char) → RawQuote
deriving DecidableEq

/-- The default highlight color string. -/
def defaultColor : List Char := "rgba(255, 255, 0, 0.4)".data

/-- A normalized query entry: text plus the color key if present. -/
structure NQuery where
  text : List Char
  color : Option (List Char)
deriving DecidableEq

/-- The normalization loop over text_quotes: a bare string becomes a record
with the default color; a dict is passed through unchanged. -/
def normalizeQueries (qs : List RawQuote) : List NQuery :=
  qs.map fun q =>
    match q with
    | .str s => ⟨s, some defaultColor⟩
    | .dict t c => ⟨t, c⟩

/-- Collapse every run of whitespace to a single space,
as re.sub of the pattern \s+ with a space. -/
def collapseWs (s : List Char) : List Char :=
  (s.foldl
    (fun acc c =>
      if isPySpace c then
        if acc.2 then acc else (acc.1 ++ [' '], true)
      else (acc.1 ++ [c], false))
    (([] : List Char), false)).1

/-- Python str.strip: drop leading and trailing whitespace. -/
def stripWs (s : List Char) : List Char :=
  ((s.dropWhile isPySpace).reverse.dropWhile isPySpace).reverse

/-- quote_clean: whitespace runs collapsed to single spaces, then trimmed. -/
def cleanQuote (s : List Char) : List Char := stripWs (collapseWs s)

/-- Python str.split with no argument: split on whitespace runs, dropping
empty pieces. -/
def splitWs (s : List Char) : List (List Char) :=
  (s.foldr
    (fun c acc =>
      if isPySpace c then [] :: acc
      else
        match acc with
        | [] => [[c]]
        | w :: ws => (c :: w) :: ws)
    []).filter (fun w => w ≠ [])

/-- full_text: the page text reconstructed by joining word texts with single
spaces, in token order. -/
def pageText (ws : List Word) : List Char :=
  joinSpace (ws.map Word.text)

/-- window_text for the window of k tokens starting at token i. -/
def windowText (ws : List Word) (i k : Nat) : List Char :=
  joinSpace (((ws.drop i).take k).map Word.text)

/-- The similarity score of a candidate window against the lower-cased
normalized quote. -/
def windowScore (qLow : List Char) (ws : List Word) (i k : Nat) : ℚ :=
  fratioQ qLow (toLowerStr (windowText ws i k))

/-- The window sizes scanned at start index i: Python range from
max(1, Q-2) to Q+5 exclusive, exited early by break once i + size exceeds
the number of words. -/
def sizesList (qc n i : Nat) : List Nat :=
  (List.range' (max 1 (qc - 2)) (qc + 5 - max 1 (qc - 2))).takeWhile
    (fun k => decide (i + k ≤ n))

/-- The candidate windows (start index, window size) in scan order: start
index ascending (outer loop), window size ascending (inner loop). -/
def candidatePairs (qc n : Nat) : List (Nat × Nat) :=
  (List.range n).flatMap fun i => (sizesList qc n i).map fun k => (i, k)

/-- One update step of the running best window: replace the tracked best
exactly when the new window scores strictly higher, recording the span
(i, i + size). -/
def stepBW (qLow : List Char) (ws : List Word) (b : ℚ × Option (Nat × Nat))
    (p : Nat × Nat) : ℚ × Option (Nat × Nat) :=
  if windowScore qLow ws p.1 p.2 > b.1 then
    (windowScore qLow ws p.1 p.2, some (p.1, p.1 + p.2))
  else b

/-- The window scan: best_window_score starts at 0, best_window_indices at
None, and candidates are folded in scan order. -/
def bestWindow (qLow : List Char) (ws : List Word) (qc : Nat) :
    ℚ × Option (Nat × Nat) :=
  (candidatePairs qc ws.length).foldl (stepBW qLow ws) (0, none)

/-- The emission of one highlight record per matched word: bounding box
copied from the word, page stored 1-based, color and verbatim quote copied
from the query. -/
def emitAnns (pageNum : Nat) (color : List Char) (quote : List Char)
    (mws : List Word) : List Ann :=
  mws.map fun w =>
    { page := pageNum + 1
      x := w.x0
      y := w.y0
      width := w.x1 - w.x0
      height := w.y1 - w.y0
      color := color
      quote := quote }

/-- Processing of one (page, query) pair: skip short quotes, gate on the
partial-ratio pre-check, run the window scan, and on acceptance emit one
record per covered word.  The error value models the TypeError raised when
best_window_indices is still None at the unpacking site. -/
def processPair (t : ℚ) (pn : Nat) (ws : List Word) (q : NQuery) :
    Except Unit (List Ann) :=
  if (cleanQuote q.text).length < 5 then .ok []
  else if partialRatioQ (toLowerStr (cleanQuote q.text)) (toLowerStr (pageText ws)) ≥ t then
    if (bestWindow (toLowerStr (cleanQuote q.text)) ws
        ((splitWs (cleanQuote q.text)).length)).1 ≥ t then
      match (bestWindow (toLowerStr (cleanQuote q.text)) ws
          ((splitWs (cleanQuote q.text)).length)).2 with
      | some se =>
        .ok (emitAnns pn (q.color.getD defaultColor) q.text
          ((ws.drop se.1).take (se.2 - se.1)))
      | none => .error ()
    else .ok []
  else .ok []

/-- The (page index, page words, query) work items in execution order:
pages outer, queries inner. -/
def allPairs (pages : List (List Word)) (qs : List NQuery) :
    List (Nat × List Word × NQuery) :=
  pages.enum.flatMap fun pg => qs.map fun q => (pg.1, pg.2, q)

/-- Run the work items in order, accumulating annotations; the first raised
error aborts the remaining items, keeping what was accumulated and setting
the warning flag (the except branch of the source). -/
def runPairs (t : ℚ) : List (Nat × List Word × NQuery) → List Ann × Bool
  | [] => ([], false)
  | p :: ps =>
    match processPair t p.1 p.2.1 p.2.2 with
    | .error _ => ([], true)
    | .ok l =>
      let r := runPairs t ps
      (l ++ r.1, r.2)

/-- find_text_fuzzy: a document that fails to open yields no annotations and
a warning; otherwise all (page, query) pairs are processed in order.  The
returned pair is (annotations, warning shown). -/
def findTextFuzzy (doc : Option (List (List Word))) (qs : List RawQuote)
    (t : ℚ) : List Ann × Bool :=
  match doc with
  | none => ([], true)
  | some pages => runPairs t (allPairs pages (normalizeQueries qs))

/-- Independent processing of a batch of documents with one query set. -/
def processBatch (qs : List RawQuote) (t : ℚ)
    (docs : List (Option (List (List Word)))) : List (List Ann × Bool) :=
  docs.map fun d => findTextFuzzy d qs t

theorem mem_takeWhile_range' (i n : Nat) :
    ∀ (len a k : Nat),
      (k ∈ (List.range' a len).takeWhile (fun k => decide (i + k ≤ n)) ↔
        (a ≤ k ∧ k < a + len ∧ i + k ≤ n)) := by
  intro len
  induction len with
  | zero =>
    intro a k
    simp only [List.range'_zero, List.takeWhile_nil, List.not_mem_nil, false_iff]
    omega
  | succ len ih =>
    intro a k
    rw [List.range'_succ, List.takeWhile_cons]
    by_cases h : i + a ≤ n
    · rw [if_pos (by simpa using h)]
      simp only [List.mem_cons, ih (a + 1)]
      constructor
      · rintro (rfl | ⟨h1, h2, h3⟩) <;> omega
      · rintro ⟨h1, h2, h3⟩
        by_cases hk : k = a
        · exact Or.inl hk
        · exact Or.inr ⟨by omega, by omega, h3⟩
    · rw [if_neg (by simpa using h)]
      simp only [List.not_mem_nil, false_iff]
      omega

theorem mem_candidatePairs (qc n i k : Nat) :
    (i, k) ∈ candidatePairs qc n ↔
      (i < n ∧ max 1 (qc - 2) ≤ k ∧ k ≤ qc + 4 ∧ i + k ≤ n) := by
  unfold candidatePairs sizesList
  rw [List.mem_flatMap]
  constructor
  · rintro ⟨j, hj, hmem⟩
    rw [List.mem_map] at hmem
    obtain ⟨k', hk', heq⟩ := hmem
    obtain ⟨rfl, rfl⟩ : j = i ∧ k' = k := by
      have := Prod.mk.injEq j k' i k ▸ heq
      exact ⟨this.1, this.2⟩
    rw [mem_takeWhile_range'] at hk'
    exact ⟨List.mem_range.mp hj, hk'.1, by omega, hk'.2.2⟩
  · rintro ⟨h1, h2, h3, h4⟩
    refine ⟨i, List.mem_range.mpr h1, ?_⟩
    rw [List.mem_map]
    exact ⟨k, (mem_takeWhile_range' i n _ _ k).mpr ⟨h2, by omega, h4⟩, rfl⟩

/-- Master invariant of the window-scan fold: the tracked score dominates
every scanned window, a missing index record forces score 0, and a recorded
span splits the scan list at the first window attaining the tracked score. -/
theorem bw_fold_inv (qLow : List Char) (ws : List Word) (cs : List (Nat × Nat)) :
    0 ≤ (cs.foldl (stepBW qLow ws) (0, none)).1 ∧
    (∀ p ∈ cs, windowScore qLow ws p.1 p.2 ≤ (cs.foldl (stepBW qLow ws) (0, none)).1) ∧
    ((cs.foldl (stepBW qLow ws) (0, none)).2 = none →
      (cs.foldl (stepBW qLow ws) (0, none)).1 = 0) ∧
    (∀ s e, (cs.foldl (stepBW qLow ws) (0, none)).2 = some (s, e) →
      ∃ pre suf k, cs = pre ++ (s, k) :: suf ∧ e = s + k ∧
        windowScore qLow ws s k = (cs.foldl (stepBW qLow ws) (0, none)).1 ∧
        0 < (cs.foldl (stepBW qLow ws) (0, none)).1 ∧
        ∀ p ∈ pre, windowScore qLow ws p.1 p.2 < (cs.foldl (stepBW qLow ws) (0, none)).1) := by
  induction cs using List.reverseRecOn with
  | nil => simp
  | append_singleton cs p ih =>
    obtain ⟨ih1, ih2, ih3, ih4⟩ := ih
    rw [List.foldl_append] at *
    simp only [List.foldl_cons, List.foldl_nil] at *
    by_cases hgt : windowScore qLow ws p.1 p.2 > (cs.foldl (stepBW qLow ws) (0, none)).1
    · rw [show stepBW qLow ws (cs.foldl (stepBW qLow ws) (0, none)) p =
          (windowScore qLow ws p.1 p.2, some (p.1, p.1 + p.2)) from if_pos hgt]
      refine ⟨le_of_lt (lt_of_le_of_lt ih1 hgt), ?_, ?_, ?_⟩
      · intro q hq
        rcases List.mem_append.mp hq with h | h
        · exact le_of_lt (lt_of_le_of_lt (ih2 q h) hgt)
        · rw [List.mem_singleton.mp h]
      · intro h
        exact absurd h (by simp)
      · intro s e hse
        have hs : s = p.1 ∧ e = p.1 + p.2 := by
          have := Option.some.inj hse
          exact ⟨(Prod.mk.injEq _ _ _ _ ▸ this).1.symm, (Prod.mk.injEq _ _ _ _ ▸ this).2.symm⟩
        obtain ⟨rfl, rfl⟩ := hs
        refine ⟨cs, [], p.2, by simp, rfl, rfl, lt_of_le_of_lt ih1 hgt, ?_⟩
        intro q hq
        exact lt_of_le_of_lt (ih2 q hq) hgt
    · rw [show stepBW qLow ws (cs.foldl (stepBW qLow ws) (0, none)) p =
          cs.foldl (stepBW qLow ws) (0, none) from if_neg hgt]
      refine ⟨ih1, ?_, ih3, ?_⟩
      · intro q hq
        rcases List.mem_append.mp hq with h | h
        · exact ih2 q h
        · rw [List.mem_singleton.mp h]
          exact le_of_not_lt hgt
      · intro s e hse
        obtain ⟨pre, suf, k, hsplit, hk, hscore, hpos, hpre⟩ := ih4 s e hse
        exact ⟨pre, suf ++ [p], k, by rw [hsplit]; simp, hk, hscore, hpos, hpre⟩

theorem bestWindow_nonneg (qLow : List Char) (ws : List Word) (qc : Nat) :
    0 ≤ (bestWindow qLow ws qc).1 :=
  (bw_fold_inv qLow ws (candidatePairs qc ws.length)).1

theorem bestWindow_ge (qLow : List Char) (ws : List Word) (qc : Nat)
    (p : Nat × Nat) (hp : p ∈ candidatePairs qc ws.length) :
    windowScore qLow ws p.1 p.2 ≤ (bestWindow qLow ws qc).1 :=
  (bw_fold_inv qLow ws (candidatePairs qc ws.length)).2.1 p hp

theorem bestWindow_none_eq_zero (qLow : List Char) (ws : List Word) (qc : Nat)
    (h : (bestWindow qLow ws qc).2 = none) : (bestWindow qLow ws qc).1 = 0 :=
  (bw_fold_inv qLow ws (candidatePairs qc ws.length)).2.2.1 h

theorem bestWindow_some_spec (qLow : List Char) (ws : List Word) (qc : Nat)
    (s e : Nat) (h : (bestWindow qLow ws qc).2 = some (s, e)) :
    ∃ pre suf k, candidatePairs qc ws.length = pre ++ (s, k) :: suf ∧ e = s + k ∧
      windowScore qLow ws s k = (bestWindow qLow ws qc).1 ∧
      0 < (bestWindow qLow ws qc).1 ∧
      ∀ p ∈ pre, windowScore qLow ws p.1 p.2 < (bestWindow qLow ws qc).1 :=
  (bw_fold_inv qLow ws (candidatePairs qc ws.length)).2.2.2 s e h

theorem bestWindow_le_100 (qLow : List Char) (ws : List Word) (qc : Nat) :
    (bestWindow qLow ws qc).1 ≤ 100 := by
  cases h : (bestWindow qLow ws qc).2 with
  | none => rw [bestWindow_none_eq_zero qLow ws qc h]; norm_num
  | some se =>
    obtain ⟨pre, suf, k, _, _, hscore, _, _⟩ :=
      bestWindow_some_spec qLow ws qc se.1 se.2 (by rw [h])
    rw [← hscore]
    exact fratioQ_le_100 _ _

/-- Strict lexicographic order on (start index, window size) pairs. -/
def lexLt (a b : Nat × Nat) : Prop :=
  a.1 < b.1 ∨ (a.1 = b.1 ∧ a.2 < b.2)

/-- The scan order is strictly increasing lexicographically: start index
ascending in the outer loop, window size ascending in the inner loop. -/
theorem candidatePairs_sorted (qc n : Nat) :
    List.Pairwise lexLt (candidatePairs qc n) := by
  unfold candidatePairs
  rw [List.pairwise_flatMap]
  constructor
  · intro i _
    rw [List.pairwise_map]
    have h1 : List.Pairwise (· < ·) (sizesList qc n i) :=
      List.Pairwise.sublist (List.takeWhile_sublist _) (List.pairwise_lt_range' _ _)
    exact h1.imp fun hab => Or.inr ⟨rfl, hab⟩
  · refine (List.pairwise_lt_range n).imp ?_
    intro a b hab x hx y hy
    rw [List.mem_map] at hx hy
    obtain ⟨k1, _, rfl⟩ := hx
    obtain ⟨k2, _, rfl⟩ := hy
    exact Or.inl hab

theorem processPair_short (t : ℚ) (pn : Nat) (ws : List Word) (q : NQuery)
    (h : (cleanQuote q.text).length < 5) : processPair t pn ws q = .ok [] := by
  unfold processPair
  rw [if_pos h]

theorem processPair_low (t : ℚ) (pn : Nat) (ws : List Word) (q : NQuery)
    (h : ¬ partialRatioQ (toLowerStr (cleanQuote q.text)) (toLowerStr (pageText ws)) ≥ t) :
    processPair t pn ws q = .ok [] := by
  unfold processPair
  by_cases h5 : (cleanQuote q.text).length < 5
  · rw [if_pos h5]
  · rw [if_neg h5, if_neg h]

/-- When all four gates pass, the pair emits exactly the records of the
covered words, and the accepted span is a well-formed nonempty token range. -/
theorem processPair_accept (t : ℚ) (pn : Nat) (ws : List Word) (q : NQuery)
    (s e : Nat)
    (h5 : ¬ (cleanQuote q.text).length < 5)
    (hpre : partialRatioQ (toLowerStr (cleanQuote q.text)) (toLowerStr (pageText ws)) ≥ t)
    (hbest : (bestWindow (toLowerStr (cleanQuote q.text)) ws
      ((splitWs (cleanQuote q.text)).length)).1 ≥ t)
    (hsome : (bestWindow (toLowerStr (cleanQuote q.text)) ws
      ((splitWs (cleanQuote q.text)).length)).2 = some (s, e)) :
    processPair t pn ws q = .ok (emitAnns pn (q.color.getD defaultColor) q.text
      ((ws.drop s).take (e - s))) ∧
    ((ws.drop s).take (e - s)).length = e - s ∧ s < e ∧ e ≤ ws.length := by
  obtain ⟨pre, suf, k, hsplit, hk, _, _, _⟩ :=
    bestWindow_some_spec _ ws _ s e hsome
  have hmem : (s, k) ∈ candidatePairs ((splitWs (cleanQuote q.text)).length) ws.length := by
    rw [hsplit]
    exact List.mem_append.mpr (Or.inr (List.mem_cons_self _ _))
  obtain ⟨hsn, hklow, _, hsk⟩ := (mem_candidatePairs _ _ _ _).mp hmem
  have hk1 : 1 ≤ k := le_trans (Nat.le_max_left 1 _) hklow
  refine ⟨?_, ?_, by omega, by omega⟩
  · unfold processPair
    rw [if_neg h5, if_pos hpre, if_pos hbest, hsome]
  · rw [List.length_take, List.length_drop]
    omega

/-- Claim C4: for a page with numWords words and a quote with Q
whitespace-delimited tokens, the scanned windows are exactly the pairs (i, k)
with 0 ≤ i < numWords, max 1 (Q - 2) ≤ k ≤ Q + 4 and i + k ≤ numWords. -/
theorem C4_candidate_windows (q : NQuery) (ws : List Word) (i k : Nat) :
    ((i, k) ∈ candidatePairs ((splitWs (cleanQuote q.text)).length) ws.length ↔
      (i < ws.length ∧
       max 1 ((splitWs (cleanQuote q.text)).length - 2) ≤ k ∧
       k ≤ (splitWs (cleanQuote q.text)).length + 4 ∧
       i + k ≤ ws.length)) :=
  mem_candidatePairs _ ws.length i k

/-- Claim C7: a query whose normalized text has fewer than 5 characters
produces no records on any page and raises no error and no warning. -/
theorem C7_short_query_skipped (t : ℚ) (pn : Nat) (ws : List Word) (q : NQuery)
    (h : (cleanQuote q.text).length < 5) : processPair t pn ws q = .ok [] :=
  processPair_short t pn ws q h

/-- Witness for C7 at a concrete two-character query. -/
theorem C7_witness :
    (cleanQuote "ab".data).length < 5 ∧
    processPair 85 0 [⟨0, 0, 1, 1, "abcde".data⟩] ⟨"ab".data, none⟩ = .ok [] :=
  ⟨by decide!, C7_short_query_skipped 85 0 [⟨0, 0, 1, 1, "abcde".data⟩] ⟨"ab".data, none⟩ (by decide!)⟩

/-- Claim C10: with a strictly positive threshold the acceptance site never
unpacks a missing best window: every pair run returns normally. -/
theorem C10_no_unpack_failure (t : ℚ) (pn : Nat) (ws : List Word) (q : NQuery)
    (ht : 0 < t) : ∃ l, processPair t pn ws q = .ok l := by
  by_cases h5 : (cleanQuote q.text).length < 5
  · exact ⟨[], processPair_short t pn ws q h5⟩
  by_cases hpre : partialRatioQ (toLowerStr (cleanQuote q.text)) (toLowerStr (pageText ws)) ≥ t
  · by_cases hbest : (bestWindow (toLowerStr (cleanQuote q.text)) ws
        ((splitWs (cleanQuote q.text)).length)).1 ≥ t
    · cases hsome : (bestWindow (toLowerStr (cleanQuote q.text)) ws
          ((splitWs (cleanQuote q.text)).length)).2 with
      | none =>
        exfalso
        have h0 := bestWindow_none_eq_zero _ ws _ hsome
        rw [h0] at hbest
        linarith
      | some se =>
        obtain ⟨heq, _, _, _⟩ := processPair_accept t pn ws q se.1 se.2 h5 hpre hbest
          (hsome.trans rfl)
        exact ⟨_, heq⟩
    · refine ⟨[], ?_⟩
      unfold processPair
      rw [if_neg h5, if_pos hpre, if_neg hbest]
  · exact ⟨[], processPair_low t pn ws q hpre⟩

/-- Witness for C10 at threshold 85 and an empty page. -/
theorem C10_witness :
    (0 : ℚ) < 85 ∧ ∃ l, processPair 85 0 [] ⟨"abcde".data, none⟩ = .ok l :=
  ⟨by norm_num, C10_no_unpack_failure 85 0 [] ⟨"abcde".data, none⟩ (by norm_num)⟩

/-- A concrete one-word page fixture used by several witnesses. -/
def wordA : Word := ⟨0, 0, 2, 3, "abcde".data⟩

/-- Claim C2: the recorded best window splits the scan list at the first
window attaining the maximum score: all windows scanned before it score
strictly lower, every scanned window scores at most the maximum, earlier
windows are lexicographically smaller (ascending start outer, ascending size
inner), and any other window attaining the maximum is lexicographically
larger. -/
theorem C2_first_observed_max (qLow : List Char) (ws : List Word) (qc : Nat)
    (s e : Nat) (h : (bestWindow qLow ws qc).2 = some (s, e)) :
    ∃ pre suf k, candidatePairs qc ws.length = pre ++ (s, k) :: suf ∧
      e = s + k ∧
      windowScore qLow ws s k = (bestWindow qLow ws qc).1 ∧
      (∀ p ∈ pre, windowScore qLow ws p.1 p.2 < (bestWindow qLow ws qc).1) ∧
      (∀ p ∈ pre, lexLt p (s, k)) ∧
      (∀ p ∈ candidatePairs qc ws.length,
        windowScore qLow ws p.1 p.2 ≤ (bestWindow qLow ws qc).1) ∧
      (∀ p ∈ candidatePairs qc ws.length,
        windowScore qLow ws p.1 p.2 = (bestWindow qLow ws qc).1 →
          p = (s, k) ∨ lexLt (s, k) p) := by
  obtain ⟨pre, suf, k, hsplit, hk, hscore, hpos, hpre⟩ :=
    bestWindow_some_spec qLow ws qc s e h
  have hsort := candidatePairs_sorted qc ws.length
  rw [hsplit] at hsort
  obtain ⟨hsort1, hsort2, hsort3⟩ := List.pairwise_append.mp hsort
  obtain ⟨hcons, _⟩ := List.pairwise_cons.mp hsort2
  refine ⟨pre, suf, k, hsplit, hk, hscore, hpre,
    fun p hp => hsort3 p hp (s, k) (List.mem_cons_self _ _),
    fun p hp => bestWindow_ge qLow ws qc p hp, ?_⟩
  intro p hp hmax
  rw [hsplit] at hp
  rcases List.mem_append.mp hp with hmem | hmem
  · exact absurd hmax (ne_of_lt (hpre p hmem))
  · rcases List.mem_cons.mp hmem with hmem | hmem
    · exact Or.inl hmem
    · exact Or.inr (hcons p hmem)

/-- Witness for C2 at a one-word page and a matching one-token quote. -/
theorem C2_witness :
    (bestWindow (toLowerStr (cleanQuote "abcde".data)) [wordA]
        ((splitWs (cleanQuote "abcde".data)).length)).2 = some (0, 1) ∧
    (∃ pre suf k,
      candidatePairs ((splitWs (cleanQuote "abcde".data)).length) [wordA].length =
        pre ++ (0, k) :: suf ∧
      1 = 0 + k ∧
      windowScore (toLowerStr (cleanQuote "abcde".data)) [wordA] 0 k =
        (bestWindow (toLowerStr (cleanQuote "abcde".data)) [wordA]
          ((splitWs (cleanQuote "abcde".data)).length)).1 ∧
      (∀ p ∈ pre, windowScore (toLowerStr (cleanQuote "abcde".data)) [wordA] p.1 p.2 <
        (bestWindow (toLowerStr (cleanQuote "abcde".data)) [wordA]
          ((splitWs (cleanQuote "abcde".data)).length)).1) ∧
      (∀ p ∈ pre, lexLt p (0, k)) ∧
      (∀ p ∈ candidatePairs ((splitWs (cleanQuote "abcde".data)).length) [wordA].length,
        windowScore (toLowerStr (cleanQuote "abcde".data)) [wordA] p.1 p.2 ≤
          (bestWindow (toLowerStr (cleanQuote "abcde".data)) [wordA]
            ((splitWs (cleanQuote "abcde".data)).length)).1) ∧
      (∀ p ∈ candidatePairs ((splitWs (cleanQuote "abcde".data)).length) [wordA].length,
        windowScore (toLowerStr (cleanQuote "abcde".data)) [wordA] p.1 p.2 =
          (bestWindow (toLowerStr (cleanQuote "abcde".data)) [wordA]
            ((splitWs (cleanQuote "abcde".data)).length)).1 →
          p = (0, k) ∨ lexLt (0, k) p)) :=
  ⟨by decide!, C2_first_observed_max (toLowerStr (cleanQuote "abcde".data))
    [wordA] ((splitWs (cleanQuote "abcde".data)).length) 0 1 (by decide!)⟩

/-- Claim C6: an unreadable document yields an empty record list plus a
warning, raises nothing, and leaves the other documents of a batch
untouched. -/
theorem C6_parse_failure (qs : List RawQuote) (t : ℚ)
    (pre post : List (Option (List (List Word)))) :
    findTextFuzzy none qs t = ([], true) ∧
    processBatch qs t (pre ++ none :: post) =
      processBatch qs t pre ++ ([], true) :: processBatch qs t post := by
  refine ⟨rfl, ?_⟩
  unfold processBatch
  rw [List.map_append, List.map_cons]
  rfl

/-- Counterexample to claim C1 as stated: the query "bcdef" (normalized
length 5) is an exact case-insensitive substring of the page text "abcdef",
the prefilter scores 100 so the Window Aligner runs, yet no scanned window
reaches score 100 — the best window score is 1000/11, because the substring
occurrence is not aligned on token boundaries. -/
theorem C1_counterexample :
    (5 : Nat) ≤ (cleanQuote "bcdef".data).length ∧
    (∃ a b, toLowerStr (pageText [⟨0, 0, 1, 1, "abcdef".data⟩]) =
      a ++ toLowerStr (cleanQuote "bcdef".data) ++ b) ∧
    partialRatioQ (toLowerStr (cleanQuote "bcdef".data))
      (toLowerStr (pageText [⟨0, 0, 1, 1, "abcdef".data⟩])) ≥ 85 ∧
    (bestWindow (toLowerStr (cleanQuote "bcdef".data)) [⟨0, 0, 1, 1, "abcdef".data⟩]
      ((splitWs (cleanQuote "bcdef".data)).length)).1 ≠ 100 :=
  ⟨by decide!, ⟨"a".data, [], by decide!⟩, by decide!, by decide!⟩

/-- Claim C1 (amended): if the lower-cased normalized quote (length at least
5) equals the lower-cased text of some token window (i, k) with k in the
scanned size range and i + k within the page — in particular any occurrence
aligned on token boundaries, where k is the quote's token count — then the
prefilter scores 100, the Window Aligner's best window score is 100, and a
Match is emitted whose accepted span also scores 100. -/
theorem C1_exact_token_match (pn : Nat) (ws : List Word) (q : NQuery) (i k : Nat)
    (h5 : ¬ (cleanQuote q.text).length < 5)
    (hkl : max 1 ((splitWs (cleanQuote q.text)).length - 2) ≤ k)
    (hkh : k ≤ (splitWs (cleanQuote q.text)).length + 4)
    (hik : i + k ≤ ws.length)
    (heq : toLowerStr (cleanQuote q.text) = toLowerStr (windowText ws i k)) :
    partialRatioQ (toLowerStr (cleanQuote q.text)) (toLowerStr (pageText ws)) = 100 ∧
    (bestWindow (toLowerStr (cleanQuote q.text)) ws
      ((splitWs (cleanQuote q.text)).length)).1 = 100 ∧
    ∃ s e, (bestWindow (toLowerStr (cleanQuote q.text)) ws
        ((splitWs (cleanQuote q.text)).length)).2 = some (s, e) ∧
      windowScore (toLowerStr (cleanQuote q.text)) ws s (e - s) = 100 ∧
      s < e ∧ e ≤ ws.length ∧
      processPair 85 pn ws q = .ok (emitAnns pn (q.color.getD defaultColor) q.text
        ((ws.drop s).take (e - s))) := by
  have hk1 : 1 ≤ k := le_trans (Nat.le_max_left _ _) hkl
  have hmem : (i, k) ∈ candidatePairs ((splitWs (cleanQuote q.text)).length) ws.length :=
    (mem_candidatePairs _ _ _ _).mpr ⟨by omega, hkl, hkh, hik⟩
  have hws : windowScore (toLowerStr (cleanQuote q.text)) ws i k = 100 := by
    unfold windowScore
    rw [← heq]
    exact fratioQ_self _
  have hsplitmap : ws.map Word.text =
      (ws.take i).map Word.text ++ ((ws.drop i).take k).map Word.text ++
        (ws.drop (i + k)).map Word.text := by
    rw [← List.map_append, ← List.map_append]
    congr 1
    conv_lhs => rw [← List.take_append_drop i ws]
    rw [List.append_assoc]
    congr 1
    conv_lhs => rw [← List.take_append_drop k (ws.drop i)]
    congr 1
    rw [List.drop_drop, Nat.add_comm]
  have hseg : ∃ a b, toLowerStr (pageText ws) =
      a ++ toLowerStr (cleanQuote q.text) ++ b := by
    obtain ⟨a, b, hab⟩ := joinSpace_sandwich ((ws.take i).map Word.text)
      (((ws.drop i).take k).map Word.text) ((ws.drop (i + k)).map Word.text)
    refine ⟨toLowerStr a, toLowerStr b, ?_⟩
    unfold pageText
    rw [hsplitmap, hab, heq]
    unfold toLowerStr windowText
    rw [List.map_append, List.map_append]
  have hqne : toLowerStr (cleanQuote q.text) ≠ [] := by
    intro hcon
    have hlen0 := congrArg List.length hcon
    simp only [toLowerStr, List.length_map, List.length_nil] at hlen0
    omega
  have hpre : partialRatioQ (toLowerStr (cleanQuote q.text))
      (toLowerStr (pageText ws)) = 100 :=
    partialRatioQ_eq_100_of_seg _ _ hqne hseg
  have hbest_ge : (100 : ℚ) ≤ (bestWindow (toLowerStr (cleanQuote q.text)) ws
      ((splitWs (cleanQuote q.text)).length)).1 := by
    have hge := bestWindow_ge (toLowerStr (cleanQuote q.text)) ws
      ((splitWs (cleanQuote q.text)).length) (i, k) hmem
    simpa [hws] using hge
  have hbest : (bestWindow (toLowerStr (cleanQuote q.text)) ws
      ((splitWs (cleanQuote q.text)).length)).1 = 100 :=
    le_antisymm (bestWindow_le_100 _ _ _) hbest_ge
  refine ⟨hpre, hbest, ?_⟩
  cases hsome : (bestWindow (toLowerStr (cleanQuote q.text)) ws
      ((splitWs (cleanQuote q.text)).length)).2 with
  | none =>
    exfalso
    have h0 := bestWindow_none_eq_zero _ ws _ hsome
    rw [hbest] at h0
    norm_num at h0
  | some se =>
    obtain ⟨pre, suf, k', hsplit', hk', hscore', _, _⟩ :=
      bestWindow_some_spec _ ws _ se.1 se.2 (hsome.trans rfl)
    have hm : (se.1, k') ∈ candidatePairs ((splitWs (cleanQuote q.text)).length)
        ws.length := by
      rw [hsplit']
      exact List.mem_append.mpr (Or.inr (List.mem_cons_self _ _))
    obtain ⟨_, hkl', _, hik'⟩ := (mem_candidatePairs _ _ _ _).mp hm
    have hk'1 : 1 ≤ k' := le_trans (Nat.le_max_left _ _) hkl'
    have hsub : se.2 - se.1 = k' := by omega
    refine ⟨se.1, se.2, rfl, ?_, by omega, by omega, ?_⟩
    · rw [hsub, hscore', hbest]
    · have hprege : partialRatioQ (toLowerStr (cleanQuote q.text))
          (toLowerStr (pageText ws)) ≥ 85 := by rw [hpre]; norm_num
      have hbestge : (bestWindow (toLowerStr (cleanQuote q.text)) ws
          ((splitWs (cleanQuote q.text)).length)).1 ≥ 85 := by rw [hbest]; norm_num
      exact (processPair_accept 85 pn ws q se.1 se.2 h5 hprege hbestge
        (hsome.trans rfl)).1

/-- Witness for the amended C1 at a page whose single token matches the
quote exactly. -/
theorem C1_witness :
    partialRatioQ (toLowerStr (cleanQuote ("abcde".data)))
      (toLowerStr (pageText [wordA])) = 100 ∧
    (bestWindow (toLowerStr (cleanQuote ("abcde".data))) [wordA]
      ((splitWs (cleanQuote ("abcde".data))).length)).1 = 100 ∧
    ∃ s e, (bestWindow (toLowerStr (cleanQuote ("abcde".data))) [wordA]
        ((splitWs (cleanQuote ("abcde".data))).length)).2 = some (s, e) ∧
      windowScore (toLowerStr (cleanQuote ("abcde".data))) [wordA] s (e - s) = 100 ∧
      s < e ∧ e ≤ [wordA].length ∧
      processPair 85 0 [wordA] ⟨"abcde".data, none⟩ =
        .ok (emitAnns 0 ((⟨"abcde".data, none⟩ : NQuery).color.getD defaultColor)
          "abcde".data (([wordA].drop s).take (e - s))) :=
  C1_exact_token_match 0 [wordA] ⟨"abcde".data, none⟩ 0 1
    (by decide!) (by decide!) (by decide!) (by decide!) (by decide!)

end ReconApp
